import Mathlib

/-!
Shallow embedding of the LRU cache in `src/lib.rs`.

The Rust code keeps a doubly linked recency list of heap-allocated nodes
(`head`/`tail` plus per-node `prev`/`next` raw pointers) and a `HashMap`
from each key to the node holding it.  Here the linked structure is
represented by the list `order` of node identifiers from head (most
recently used) to tail (least recently used); `detach`/`attach` act on
that list exactly as the source's pointer surgery acts on the linked
list at its call sites (the caller guarantees the node is in the list
for `detach`, and detached for `attach`).  Node storage (`Box::leak` /
`Box::from_raw`) is modelled by the association list `heap` from node
identifier to key/value pair, together with the allocation counter
`nextId` and the list `freed` of identifiers passed to `Box::from_raw`.
A result of `none` from an operation marks a panic or an invalid
dereference in the Rust code (`assert!`, `Option::unwrap`, or reading
through a pointer whose node is not in `heap`).
-/

namespace Lru

/-- Cache state: `order` is the recency list (node ids, head first),
`heap` the live node storage (id to key/value), `map` the index from key
to node id, `cap` the capacity, `nextId` the allocation counter and
`freed` the ids whose nodes were handed back to `Box::from_raw`. -/
structure LruCache (K V : Type) where
  order : List Nat
  heap : List (Nat × K × V)
  map : List (K × Nat)
  cap : Nat
  nextId : Nat
  freed : List Nat

variable {K V : Type}

/-- Lookup in the index (`HashMap::get` keyed through `KeyRef`):
the id bound to `k`, if any. -/
def mapFind [DecidableEq K] (k : K) : List (K × Nat) → Option Nat
  | [] => none
  | (k₂, i) :: rest => if k = k₂ then some i else mapFind k rest

/-- `HashMap::remove` keyed through `KeyRef`: the removed binding's id
(if any) together with the remaining index. -/
def mapFindRemove [DecidableEq K] (k : K) : List (K × Nat) → Option Nat × List (K × Nat)
  | [] => (none, [])
  | (k₂, i) :: rest =>
    if k = k₂ then (some i, rest)
    else
      let r := mapFindRemove k rest
      (r.1, (k₂, i) :: r.2)

/-- `HashMap::insert`: bind `k` to `i`, replacing any previous binding. -/
def mapInsert [DecidableEq K] (k : K) (i : Nat) (m : List (K × Nat)) : List (K × Nat) :=
  (k, i) :: (mapFindRemove k m).2

/-- Dereference a node pointer: the key/value stored at id `i`, if the
node is live. -/
def heapFind (i : Nat) : List (Nat × K × V) → Option (K × V)
  | [] => none
  | (j, kv) :: rest => if i = j then some kv else heapFind i rest

/-- Remove node `i` from live storage (`Box::from_raw` reclaims it). -/
def heapErase (i : Nat) : List (Nat × K × V) → List (Nat × K × V)
  | [] => []
  | (j, kv) :: rest => if i = j then rest else (j, kv) :: heapErase i rest

/-- Translation of `LruCache::detach`: unlink node `i` from the recency
list (the pointer rewiring removes exactly that node and leaves the
relative order of the others unchanged). -/
def detach (c : LruCache K V) (i : Nat) : LruCache K V :=
  { c with order := c.order.erase i }

/-- Translation of `LruCache::attach`: link node `i` in as the new head
(most recently used position). -/
def attach (c : LruCache K V) (i : Nat) : LruCache K V :=
  { c with order := i :: c.order }

/-- The current tail of the recency list (`self.tail`). -/
def tailId (c : LruCache K V) : Option Nat :=
  c.order.getLast?

/-- Translation of `LruCache::new`: `assert!(cap > 0)` panics (modelled
as `none`) on a zero capacity, otherwise the empty cache. -/
def new (cap : Nat) : Option (LruCache K V) :=
  if 0 < cap then
    some { order := [], heap := [], map := [], cap := cap, nextId := 0, freed := [] }
  else none

/-- Translation of `LruCache::put`.  Step by step as in the source:
allocate the new node (`Box::leak`), remove any existing binding of the
key and detach its node, evict the tail when the index still holds at
least `cap` entries (the evicted node is detached and unbound but not
freed), attach the new node at the head and bind it, and finally
reclaim the replaced node (`Box::from_raw`) returning its value. -/
def put [DecidableEq K] (c : LruCache K V) (k : K) (v : V) :
    Option (Option V × LruCache K V) :=
  match mapFindRemove k c.map with
  | (oldId?, map1) =>
    let c1 : LruCache K V :=
      { c with heap := c.heap ++ [(c.nextId, (k, v))], map := map1, nextId := c.nextId + 1 }
    let c2 : LruCache K V :=
      match oldId? with
      | some oldId => detach c1 oldId
      | none => c1
    let afterEvict : Option (LruCache K V) :=
      if c2.cap ≤ c2.map.length then
        match tailId c2 with
        | none => none
        | some tid =>
          match heapFind tid c2.heap with
          | none => none
          | some tkv => some { detach c2 tid with map := (mapFindRemove tkv.1 c2.map).2 }
      else some c2
    match afterEvict with
    | none => none
    | some c3 =>
      let c4 : LruCache K V := { attach c3 c.nextId with map := mapInsert k c.nextId c3.map }
      match oldId? with
      | none => some (none, c4)
      | some oldId =>
        match heapFind oldId c4.heap with
        | none => none
        | some okv =>
          some (some okv.2,
            { c4 with heap := heapErase oldId c4.heap, freed := c4.freed ++ [oldId] })

/-- Translation of `LruCache::get`: a hit detaches the node and
re-attaches it at the head, returning its value; a miss returns `none`
and leaves the cache untouched. -/
def get [DecidableEq K] (c : LruCache K V) (k : K) :
    Option (Option V × LruCache K V) :=
  match mapFind k c.map with
  | none => some (none, c)
  | some i =>
    match heapFind i c.heap with
    | none => none
    | some kv => some (some kv.2, attach (detach c i) i)

/-- Translation of `impl Drop for LruCache`: the destructor walks the
list from the head taking each node, but `drop(node.as_ptr())` drops a
raw pointer, which is a no-op, so no node storage is released: `heap`
and `freed` are unchanged. -/
def dropLru (c : LruCache K V) : LruCache K V :=
  { c with order := [], map := [] }

/-- One operation of the cache's public interface. -/
inductive Op (K V : Type) where
  | put (k : K) (v : V)
  | get (k : K)

/-- The key an operation touches. -/
def opKey : Op K V → K
  | Op.put k _ => k
  | Op.get k => k

/-- Run one operation, propagating an earlier panic. -/
def stepOp [DecidableEq K] (s : Option (LruCache K V)) (op : Op K V) :
    Option (LruCache K V) :=
  match s with
  | none => none
  | some c =>
    match op with
    | Op.put k v => (put c k v).map Prod.snd
    | Op.get k => (get c k).map Prod.snd

/-- Run a whole trace of operations against a fresh cache. -/
def run [DecidableEq K] (cap : Nat) (t : List (Op K V)) : Option (LruCache K V) :=
  t.foldl stepOp (new cap)

/-- Helper for `lastTouch`: fold over the trace keeping one plus the
position of the latest operation whose key is `k` (zero if none yet). -/
def lastTouchAux [DecidableEq K] (k : K) : List (Op K V) → Nat → Nat → Nat
  | [], _, acc => acc
  | op :: rest, i, acc => lastTouchAux k rest (i + 1) (if opKey op = k then i + 1 else acc)

/-- One plus the position in the trace of the most recent operation
touching `k`, or zero when no operation touches `k`. -/
def lastTouch [DecidableEq K] (t : List (Op K V)) (k : K) : Nat :=
  lastTouchAux k t 0 0

/-- The keys held by the recency list, head first, resolved through the
live node storage. -/
def orderKeys (c : LruCache K V) : List K :=
  c.order.filterMap fun i => (heapFind i c.heap).map Prod.fst

/-- The keys of the recency list are strictly ordered by decreasing
last-touch position in the trace: the head was touched most recently. -/
def RecencySorted [DecidableEq K] (t : List (Op K V)) (c : LruCache K V) : Prop :=
  (orderKeys c).Pairwise fun a b => lastTouch t b < lastTouch t a

/-- The value currently held for `k`, read without mutating. -/
def valueOf [DecidableEq K] (c : LruCache K V) (k : K) : Option V :=
  (mapFind k c.map).bind fun i => (heapFind i c.heap).map Prod.snd

/-- Well-formedness of a cache state: the recency list has no duplicate
nodes, index and list have the same size bounded by the capacity, index
keys and index ids and heap ids are duplicate free, every index binding
points to a live listed node carrying that key, every listed node is
bound in the index, and every live node id is below the allocation
counter. -/
structure WF [DecidableEq K] (c : LruCache K V) : Prop where
  nodupOrder : c.order.Nodup
  lenEq : c.map.length = c.order.length
  lenLe : c.order.length ≤ c.cap
  capPos : 0 < c.cap
  nodupKeys : (c.map.map Prod.fst).Nodup
  nodupIds : (c.map.map Prod.snd).Nodup
  nodupHeap : (c.heap.map Prod.fst).Nodup
  mapSound : ∀ k i, mapFind k c.map = some i → i ∈ c.order ∧ ∃ v, heapFind i c.heap = some (k, v)
  orderComplete : ∀ i ∈ c.order, ∃ k, mapFind k c.map = some i
  heapLt : ∀ p ∈ c.heap, p.1 < c.nextId

/-! ### Association list lemmas -/

theorem mapFindRemove_fst [DecidableEq K] (k : K) (m : List (K × Nat)) :
    (mapFindRemove k m).1 = mapFind k m := by
  induction m with
  | nil => rfl
  | cons p rest ih =>
    obtain ⟨k₂, i⟩ := p
    by_cases h : k = k₂
    · simp [mapFindRemove, mapFind, h]
    · simp [mapFindRemove, mapFind, h, ih]

theorem mapFindRemove_snd_of_none [DecidableEq K] {k : K} {m : List (K × Nat)}
    (h : mapFind k m = none) : (mapFindRemove k m).2 = m := by
  induction m with
  | nil => rfl
  | cons p rest ih =>
    obtain ⟨k₂, i⟩ := p
    by_cases hk : k = k₂
    · simp [mapFind, hk] at h
    · simp only [mapFind, if_neg hk] at h
      simp [mapFindRemove, hk, ih h]

theorem mapFindRemove_perm [DecidableEq K] {k : K} {m : List (K × Nat)} {i : Nat}
    (h : mapFind k m = some i) : m.Perm ((k, i) :: (mapFindRemove k m).2) := by
  induction m with
  | nil => simp [mapFind] at h
  | cons p rest ih =>
    obtain ⟨k₂, j⟩ := p
    by_cases hk : k = k₂
    · subst hk
      simp only [mapFind, if_pos rfl] at h
      obtain rfl : j = i := Option.some.inj h
      simp [mapFindRemove]
    · simp only [mapFind, if_neg hk] at h
      simp only [mapFindRemove, if_neg hk]
      exact ((ih h).cons _).trans (List.Perm.swap _ _ _)

theorem mapFindRemove_sublist [DecidableEq K] (k : K) (m : List (K × Nat)) :
    (mapFindRemove k m).2.Sublist m := by
  induction m with
  | nil => simp [mapFindRemove]
  | cons p rest ih =>
    obtain ⟨k₂, i⟩ := p
    by_cases hk : k = k₂
    · simp [mapFindRemove, hk]
    · simp only [mapFindRemove, if_neg hk]
      exact ih.cons₂ _

theorem mapFind_mapFindRemove_ne [DecidableEq K] {k k₂ : K} (h : k₂ ≠ k) (m : List (K × Nat)) :
    mapFind k₂ (mapFindRemove k m).2 = mapFind k₂ m := by
  induction m with
  | nil => rfl
  | cons p rest ih =>
    obtain ⟨k₃, i⟩ := p
    by_cases hk : k = k₃
    · subst hk
      simp [mapFindRemove, mapFind, h]
    · by_cases h₂ : k₂ = k₃ <;>
        simp [mapFindRemove, mapFind, hk, h₂, ih]

theorem mapFind_eq_none [DecidableEq K] {k : K} {m : List (K × Nat)} :
    mapFind k m = none ↔ k ∉ m.map Prod.fst := by
  induction m with
  | nil => simp [mapFind]
  | cons p rest ih =>
    obtain ⟨k₂, i⟩ := p
    by_cases hk : k = k₂ <;> simp [mapFind, hk, ih]

theorem mapFind_mapFindRemove_self [DecidableEq K] {k : K} {m : List (K × Nat)}
    (h : (m.map Prod.fst).Nodup) : mapFind k (mapFindRemove k m).2 = none := by
  induction m with
  | nil => rfl
  | cons p rest ih =>
    obtain ⟨k₂, i⟩ := p
    simp only [List.map_cons, List.nodup_cons] at h
    by_cases hk : k = k₂
    · subst hk
      simp only [mapFindRemove, if_pos rfl]
      exact mapFind_eq_none.mpr h.1
    · simp only [mapFindRemove, if_neg hk, mapFind, if_neg hk]
      exact ih h.2

theorem mapFind_mem_snd [DecidableEq K] {k : K} {m : List (K × Nat)} {i : Nat}
    (h : mapFind k m = some i) : i ∈ m.map Prod.snd := by
  induction m with
  | nil => simp [mapFind] at h
  | cons p rest ih =>
    obtain ⟨k₂, j⟩ := p
    by_cases hk : k = k₂
    · simp only [mapFind, if_pos hk] at h
      obtain rfl := Option.some.inj h
      simp
    · simp only [mapFind, if_neg hk] at h
      simp [ih h]

theorem mapFind_inj [DecidableEq K] {m : List (K × Nat)} (h : (m.map Prod.snd).Nodup)
    {k₁ k₂ : K} {i : Nat} (h₁ : mapFind k₁ m = some i) (h₂ : mapFind k₂ m = some i) :
    k₁ = k₂ := by
  induction m with
  | nil => simp [mapFind] at h₁
  | cons p rest ih =>
    obtain ⟨k₃, j⟩ := p
    simp only [List.map_cons, List.nodup_cons] at h
    by_cases e₁ : k₁ = k₃ <;> by_cases e₂ : k₂ = k₃
    · exact e₁.trans e₂.symm
    · subst e₁
      simp only [mapFind, if_pos rfl] at h₁
      obtain rfl := Option.some.inj h₁
      simp only [mapFind, if_neg e₂] at h₂
      exact absurd (mapFind_mem_snd h₂) h.1
    · subst e₂
      simp only [mapFind, if_pos rfl] at h₂
      obtain rfl := Option.some.inj h₂
      simp only [mapFind, if_neg e₁] at h₁
      exact absurd (mapFind_mem_snd h₁) h.1
    · simp only [mapFind, if_neg e₁] at h₁
      simp only [mapFind, if_neg e₂] at h₂
      exact ih h.2 h₁ h₂

theorem mapFind_mapInsert_self [DecidableEq K] (k : K) (i : Nat) (m : List (K × Nat)) :
    mapFind k (mapInsert k i m) = some i := by
  simp [mapInsert, mapFind]

theorem mapFind_mapInsert_ne [DecidableEq K] {k k₂ : K} (h : k₂ ≠ k) (i : Nat)
    (m : List (K × Nat)) : mapFind k₂ (mapInsert k i m) = mapFind k₂ m := by
  simp [mapInsert, mapFind, h, mapFind_mapFindRemove_ne h]

/-! ### Heap lemmas -/

theorem heapFind_append_left {i : Nat} {h₁ h₂ : List (Nat × K × V)} {kv : K × V}
    (h : heapFind i h₁ = some kv) : heapFind i (h₁ ++ h₂) = some kv := by
  induction h₁ with
  | nil => simp [heapFind] at h
  | cons p rest ih =>
    obtain ⟨j, kv₂⟩ := p
    by_cases hj : i = j
    · simp only [heapFind, if_pos hj] at h
      simp [heapFind, hj, h]
    · simp only [heapFind, if_neg hj] at h
      simp only [List.cons_append, heapFind, if_neg hj]
      exact ih h

theorem heapFind_append_right {i : Nat} {h₁ : List (Nat × K × V)} (h : heapFind i h₁ = none)
    (h₂ : List (Nat × K × V)) : heapFind i (h₁ ++ h₂) = heapFind i h₂ := by
  induction h₁ with
  | nil => simp
  | cons p rest ih =>
    obtain ⟨j, kv₂⟩ := p
    by_cases hj : i = j
    · simp [heapFind, hj] at h
    · simp only [heapFind, if_neg hj] at h
      simp only [List.cons_append, heapFind, if_neg hj]
      exact ih h

theorem heapFind_eq_none {i : Nat} {h : List (Nat × K × V)} :
    heapFind i h = none ↔ i ∉ h.map Prod.fst := by
  induction h with
  | nil => simp [heapFind]
  | cons p rest ih =>
    obtain ⟨j, kv⟩ := p
    by_cases hj : i = j <;> simp [heapFind, hj, ih]

theorem heapFind_mem {i : Nat} {h : List (Nat × K × V)} {kv : K × V}
    (hf : heapFind i h = some kv) : (i, kv) ∈ h := by
  induction h with
  | nil => simp [heapFind] at hf
  | cons p rest ih =>
    obtain ⟨j, kv₂⟩ := p
    by_cases hj : i = j
    · subst hj
      simp only [heapFind, if_pos rfl] at hf
      obtain rfl := Option.some.inj hf
      simp
    · simp only [heapFind, if_neg hj] at hf
      simp [ih hf]

theorem heapErase_sublist (i : Nat) (h : List (Nat × K × V)) :
    (heapErase i h).Sublist h := by
  induction h with
  | nil => simp [heapErase]
  | cons p rest ih =>
    obtain ⟨j, kv⟩ := p
    by_cases hj : i = j
    · simp [heapErase, hj]
    · simp only [heapErase, if_neg hj]
      exact ih.cons₂ _

theorem heapFind_heapErase_ne {i j : Nat} (hne : j ≠ i) (h : List (Nat × K × V)) :
    heapFind j (heapErase i h) = heapFind j h := by
  induction h with
  | nil => rfl
  | cons p rest ih =>
    obtain ⟨j₂, kv⟩ := p
    by_cases hj : i = j₂
    · subst hj
      simp [heapErase, heapFind, hne]
    · by_cases h₂ : j = j₂ <;> simp [heapErase, heapFind, hj, h₂, ih]

/-! ### Last-touch lemmas -/

theorem lastTouchAux_append [DecidableEq K] (k : K) (t₁ t₂ : List (Op K V)) (i acc : Nat) :
    lastTouchAux k (t₁ ++ t₂) i acc
      = lastTouchAux k t₂ (i + t₁.length) (lastTouchAux k t₁ i acc) := by
  induction t₁ generalizing i acc with
  | nil => simp [lastTouchAux]
  | cons op rest ih =>
    simp only [List.cons_append, lastTouchAux, List.length_cons, List.append_eq]
    rw [ih]
    have h : i + 1 + rest.length = i + (rest.length + 1) := by omega
    rw [h]

theorem lastTouch_concat [DecidableEq K] (t : List (Op K V)) (op : Op K V) (k : K) :
    lastTouch (t ++ [op]) k = if opKey op = k then t.length + 1 else lastTouch t k := by
  simp only [lastTouch, lastTouchAux_append, lastTouchAux, Nat.zero_add]

theorem lastTouchAux_le [DecidableEq K] (k : K) (t : List (Op K V)) (i acc : Nat)
    (h : acc ≤ i) : lastTouchAux k t i acc ≤ i + t.length := by
  induction t generalizing i acc with
  | nil => simpa [lastTouchAux] using h.trans (Nat.le_add_right i 0)
  | cons op rest ih =>
    simp only [lastTouchAux, List.length_cons]
    have h₂ : (if opKey op = k then i + 1 else acc) ≤ i + 1 := by
      split
      · exact Nat.le_refl _
      · exact h.trans (Nat.le_succ i)
    exact (ih (i + 1) _ h₂).trans (by omega)

theorem lastTouch_le_length [DecidableEq K] (t : List (Op K V)) (k : K) :
    lastTouch t k ≤ t.length := by
  simpa using lastTouchAux_le k t 0 0 (Nat.le_refl 0)

/-! ### Generic list helpers -/

theorem getLast?_mem_of_eq {α : Type} {l : List α} {a : α} (h : l.getLast? = some a) :
    a ∈ l := by
  induction l with
  | nil => simp at h
  | cons x rest ih =>
    cases rest with
    | nil =>
      simp only [List.getLast?_singleton, Option.some.injEq] at h
      simp [h]
    | cons y ys =>
      rw [List.getLast?_cons_cons] at h
      exact List.mem_cons_of_mem _ (ih h)

theorem pairwise_getLast_min {α : Type} {R : α → α → Prop} {l : List α}
    (h : l.Pairwise R) {a : α} (ha : l.getLast? = some a) :
    ∀ b ∈ l, b = a ∨ R b a := by
  induction l with
  | nil => simp at ha
  | cons x rest ih =>
    cases rest with
    | nil =>
      simp only [List.getLast?_singleton, Option.some.injEq] at ha
      intro b hb
      simp only [List.mem_singleton] at hb
      exact Or.inl (hb.trans ha)
    | cons y ys =>
      rw [List.getLast?_cons_cons] at ha
      obtain ⟨hx, hrest⟩ := List.pairwise_cons.mp h
      intro b hb
      rcases List.mem_cons.mp hb with rfl | hb₂
      · exact Or.inr (hx a (getLast?_mem_of_eq ha))
      · exact ih hrest ha b hb₂

/-! ### Consequences of well-formedness -/

theorem WF.orderHeap [DecidableEq K] {c : LruCache K V} (h : WF c) {i : Nat}
    (hi : i ∈ c.order) :
    ∃ k v, heapFind i c.heap = some (k, v) ∧ mapFind k c.map = some i := by
  obtain ⟨k, hk⟩ := h.orderComplete i hi
  obtain ⟨-, v, hv⟩ := h.mapSound k i hk
  exact ⟨k, v, hv, hk⟩

theorem WF.keyFind [DecidableEq K] {c : LruCache K V} (h : WF c) {i : Nat} {k : K} {v : V}
    (hi : i ∈ c.order) (hf : heapFind i c.heap = some (k, v)) :
    mapFind k c.map = some i := by
  obtain ⟨k₂, v₂, hv₂, hk₂⟩ := h.orderHeap hi
  rw [hf] at hv₂
  simp only [Option.some.injEq, Prod.mk.injEq] at hv₂
  obtain ⟨rfl, rfl⟩ := hv₂
  exact hk₂

theorem WF.orderLt [DecidableEq K] {c : LruCache K V} (h : WF c) {i : Nat}
    (hi : i ∈ c.order) : i < c.nextId := by
  obtain ⟨k, v, hv, -⟩ := h.orderHeap hi
  exact h.heapLt _ (heapFind_mem hv)

theorem WF.heapFresh [DecidableEq K] {c : LruCache K V} (h : WF c) :
    heapFind c.nextId c.heap = (none : Option (K × V)) := by
  rw [heapFind_eq_none]
  intro hmem
  obtain ⟨p, hp, he⟩ := List.mem_map.mp hmem
  have := h.heapLt p hp
  rw [he] at this
  exact Nat.lt_irrefl _ this

theorem WF.mapLt [DecidableEq K] {c : LruCache K V} (h : WF c) {k : K} {i : Nat}
    (hm : mapFind k c.map = some i) : i < c.nextId :=
  h.orderLt (h.mapSound k i hm).1

/-! ### Characterization of `put` and `get` on well-formed states -/

theorem put_found [DecidableEq K] {c : LruCache K V} {k : K} {oid : Nat} (v : V)
    (hw : WF c) (hm : mapFind k c.map = some oid) :
    ∃ vold : V, heapFind oid c.heap = some (k, vold) ∧
      put c k v = some (some vold,
        { order := c.nextId :: c.order.erase oid,
          heap := heapErase oid (c.heap ++ [(c.nextId, (k, v))]),
          map := (k, c.nextId) :: (mapFindRemove k c.map).2,
          cap := c.cap, nextId := c.nextId + 1, freed := c.freed ++ [oid] }) := by
  obtain ⟨hmem, vold, hv⟩ := hw.mapSound k oid hm
  refine ⟨vold, hv, ?_⟩
  have hrm : mapFindRemove k c.map = (some oid, (mapFindRemove k c.map).2) := by
    have h1 := mapFindRemove_fst k c.map
    rw [hm] at h1
    exact Prod.ext h1 rfl
  have hlen : ¬ c.cap ≤ (mapFindRemove k c.map).2.length := by
    have hperm := mapFindRemove_perm hm
    have hl : c.map.length = (mapFindRemove k c.map).2.length + 1 := by
      simpa using hperm.length_eq
    have hle : c.map.length ≤ c.cap := hw.lenEq ▸ hw.lenLe
    omega
  have hfind : heapFind oid (c.heap ++ [(c.nextId, (k, v))]) = some (k, vold) :=
    heapFind_append_left hv
  have hre : (mapFindRemove k ((mapFindRemove k c.map).2)).2 = (mapFindRemove k c.map).2 :=
    mapFindRemove_snd_of_none (mapFind_mapFindRemove_self hw.nodupKeys)
  simp only [put]
  rw [hrm]
  simp [detach, attach, mapInsert, tailId, hlen, hfind, hre]

theorem put_new_noevict [DecidableEq K] {c : LruCache K V} {k : K} (v : V)
    (hm : mapFind k c.map = none) (hlen : c.map.length < c.cap) :
    put c k v = some (none,
      { order := c.nextId :: c.order,
        heap := c.heap ++ [(c.nextId, (k, v))],
        map := (k, c.nextId) :: c.map,
        cap := c.cap, nextId := c.nextId + 1, freed := c.freed }) := by
  have hrm : mapFindRemove k c.map = (none, c.map) := by
    have h1 := mapFindRemove_fst k c.map
    rw [hm] at h1
    exact Prod.ext h1 (mapFindRemove_snd_of_none hm)
  have hnotle : ¬ c.cap ≤ c.map.length := Nat.not_le.mpr hlen
  simp only [put]
  rw [hrm]
  simp [detach, attach, mapInsert, tailId, hnotle, mapFindRemove_snd_of_none hm]

theorem put_new_evict [DecidableEq K] {c : LruCache K V} {k : K} (v : V)
    (hw : WF c) (hm : mapFind k c.map = none) (hfull : c.cap ≤ c.map.length) :
    ∃ tid kt vt, c.order.getLast? = some tid ∧
      heapFind tid c.heap = some (kt, vt) ∧
      mapFind kt c.map = some tid ∧
      put c k v = some (none,
        { order := c.nextId :: c.order.erase tid,
          heap := c.heap ++ [(c.nextId, (k, v))],
          map := (k, c.nextId) :: (mapFindRemove kt c.map).2,
          cap := c.cap, nextId := c.nextId + 1, freed := c.freed }) := by
  have hne : c.order ≠ [] := by
    intro h0
    have hl : c.map.length = 0 := by rw [hw.lenEq, h0]; rfl
    rw [hl] at hfull
    exact absurd (Nat.le_antisymm hfull (Nat.zero_le _)).symm (Nat.ne_of_lt hw.capPos)
  obtain ⟨tid, htid⟩ : ∃ tid, c.order.getLast? = some tid := by
    cases ho : c.order.getLast? with
    | none => exact absurd (List.getLast?_eq_none_iff.mp ho) hne
    | some tid => exact ⟨tid, rfl⟩
  have htmem : tid ∈ c.order := getLast?_mem_of_eq htid
  obtain ⟨kt, vt, hvt, hmt⟩ := hw.orderHeap htmem
  refine ⟨tid, kt, vt, htid, hvt, hmt, ?_⟩
  have hrm : mapFindRemove k c.map = (none, c.map) := by
    have h1 := mapFindRemove_fst k c.map
    rw [hm] at h1
    exact Prod.ext h1 (mapFindRemove_snd_of_none hm)
  have hkkt : k ≠ kt := by
    intro h0
    rw [h0, hmt] at hm
    exact Option.noConfusion hm
  have hfind : heapFind tid (c.heap ++ [(c.nextId, (k, v))]) = some (kt, vt) :=
    heapFind_append_left hvt
  have hinsert : (mapFindRemove k ((mapFindRemove kt c.map).2)).2 = (mapFindRemove kt c.map).2 :=
    mapFindRemove_snd_of_none (by rw [mapFind_mapFindRemove_ne hkkt]; exact hm)
  simp only [put]
  rw [hrm]
  simp [detach, attach, mapInsert, tailId, hfull, hfind, hinsert, htid]

theorem get_found [DecidableEq K] {c : LruCache K V} {k : K} {i : Nat}
    (hw : WF c) (hm : mapFind k c.map = some i) :
    ∃ v, heapFind i c.heap = some (k, v) ∧
      get c k = some (some v, { c with order := i :: c.order.erase i }) := by
  obtain ⟨hmem, v, hv⟩ := hw.mapSound k i hm
  exact ⟨v, hv, by simp [get, hm, hv, attach, detach]⟩

theorem get_miss [DecidableEq K] {c : LruCache K V} {k : K}
    (hm : mapFind k c.map = none) : get c k = some (none, c) := by
  simp [get, hm]

/-! ### Preservation of well-formedness -/

theorem mapFind_of_mem [DecidableEq K] {m : List (K × Nat)} (h : (m.map Prod.fst).Nodup)
    {k : K} {i : Nat} (hm : (k, i) ∈ m) : mapFind k m = some i := by
  induction m with
  | nil => simp at hm
  | cons p rest ih =>
    obtain ⟨k₂, j⟩ := p
    simp only [List.map_cons, List.nodup_cons] at h
    rcases List.mem_cons.mp hm with he | hm₂
    · rw [Prod.mk.injEq] at he
      obtain ⟨rfl, rfl⟩ := he
      simp [mapFind]
    · by_cases hk : k = k₂
      · subst hk
        exact absurd (List.mem_map_of_mem Prod.fst hm₂) h.1
      · simp only [mapFind, if_neg hk]
        exact ih h.2 hm₂

theorem WF.mapIdLt [DecidableEq K] {c : LruCache K V} (h : WF c) {p : K × Nat}
    (hp : p ∈ c.map) : p.2 < c.nextId := by
  have hf : mapFind p.1 c.map = some p.2 := mapFind_of_mem h.nodupKeys (by rwa [Prod.mk.eta])
  exact h.mapLt hf

theorem WF_put_found [DecidableEq K] {c : LruCache K V} {k : K} {oid : Nat} {v : V}
    (hw : WF c) (hm : mapFind k c.map = some oid) :
    WF { order := c.nextId :: c.order.erase oid,
         heap := heapErase oid (c.heap ++ [(c.nextId, (k, v))]),
         map := (k, c.nextId) :: (mapFindRemove k c.map).2,
         cap := c.cap, nextId := c.nextId + 1, freed := c.freed ++ [oid] } := by
  set m1 := (mapFindRemove k c.map).2 with hm1
  have hperm : c.map.Perm ((k, oid) :: m1) := mapFindRemove_perm hm
  have hkeysperm : (c.map.map Prod.fst).Perm (k :: m1.map Prod.fst) := by
    simpa using hperm.map Prod.fst
  have hidsperm : (c.map.map Prod.snd).Perm (oid :: m1.map Prod.snd) := by
    simpa using hperm.map Prod.snd
  have hkeys : k ∉ m1.map Prod.fst ∧ (m1.map Prod.fst).Nodup := by
    have := hkeysperm.nodup_iff.mp hw.nodupKeys
    simpa [List.nodup_cons] using this
  have hids : oid ∉ m1.map Prod.snd ∧ (m1.map Prod.snd).Nodup := by
    have := hidsperm.nodup_iff.mp hw.nodupIds
    simpa [List.nodup_cons] using this
  have hoid_mem : oid ∈ c.order := (hw.mapSound k oid hm).1
  have hnid_fresh_order : c.nextId ∉ c.order := fun h => Nat.lt_irrefl _ (hw.orderLt h)
  have horderlen : 0 < c.order.length := List.length_pos.mpr (List.ne_nil_of_mem hoid_mem)
  have hmaplen : c.map.length = m1.length + 1 := by simpa using hperm.length_eq
  have heraselen : (c.order.erase oid).length = c.order.length - 1 :=
    List.length_erase_of_mem hoid_mem
  have hm1lt : ∀ p ∈ m1, p.2 < c.nextId := fun p hp =>
    hw.mapIdLt (hperm.symm.subset (List.mem_cons_of_mem _ hp))
  have hheap1 : ((c.heap ++ [(c.nextId, (k, v))]).map Prod.fst).Nodup := by
    rw [List.map_append]
    refine hw.nodupHeap.append (List.nodup_singleton _) ?_
    intro a ha hb
    simp only [List.map_cons, List.map_nil, List.mem_singleton] at hb
    subst hb
    exact (heapFind_eq_none.mp hw.heapFresh) ha
  have hnid_ne_oid : c.nextId ≠ oid := ne_of_gt (hw.mapLt hm)
  have hfind_new : heapFind c.nextId (heapErase oid (c.heap ++ [(c.nextId, (k, v))]))
      = some (k, v) := by
    rw [heapFind_heapErase_ne hnid_ne_oid, heapFind_append_right hw.heapFresh]
    simp [heapFind]
  refine ⟨?_, ?_, ?_, hw.capPos, ?_, ?_, ?_, ?_, ?_, ?_⟩
  · refine List.nodup_cons.mpr ⟨?_, hw.nodupOrder.erase oid⟩
    intro h
    exact hnid_fresh_order ((c.order.erase_sublist oid).subset h)
  · simp only [List.length_cons, heraselen]
    have := hw.lenEq
    omega
  · simp only [List.length_cons, heraselen]
    have := hw.lenLe
    omega
  · exact List.nodup_cons.mpr ⟨hkeys.1, hkeys.2⟩
  · refine List.nodup_cons.mpr ⟨?_, hids.2⟩
    intro hmem
    obtain ⟨p, hp, he⟩ := List.mem_map.mp hmem
    exact Nat.lt_irrefl _ (he ▸ hm1lt p hp)
  · exact hheap1.sublist ((heapErase_sublist _ _).map Prod.fst)
  · intro k' i' hfind
    simp only [mapFind] at hfind
    by_cases hk : k' = k
    · subst hk
      rw [if_pos rfl] at hfind
      obtain rfl := Option.some.inj hfind
      exact ⟨List.mem_cons_self _ _, v, hfind_new⟩
    · rw [if_neg hk, hm1, mapFind_mapFindRemove_ne hk] at hfind
      obtain ⟨hmem', v', hv'⟩ := hw.mapSound k' i' hfind
      have hne_oid : i' ≠ oid := by
        intro h0
        exact hk (mapFind_inj hw.nodupIds (h0 ▸ hfind) hm)
      refine ⟨List.mem_cons_of_mem _ ((List.mem_erase_of_ne hne_oid).mpr hmem'), v', ?_⟩
      rw [heapFind_heapErase_ne hne_oid]
      exact heapFind_append_left hv'
  · intro i hi
    rcases List.mem_cons.mp hi with rfl | hi₂
    · exact ⟨k, by simp [mapFind]⟩
    · have hmem' : i ∈ c.order := (c.order.erase_sublist oid).subset hi₂
      have hne : i ≠ oid := by
        intro h0
        rw [h0] at hi₂
        exact hw.nodupOrder.not_mem_erase hi₂
      obtain ⟨k', hk'⟩ := hw.orderComplete i hmem'
      have hkne : k' ≠ k := by
        intro h0
        rw [h0, hm] at hk'
        exact hne (Option.some.inj hk').symm
      refine ⟨k', ?_⟩
      simp only [mapFind, if_neg hkne, hm1]
      rw [mapFind_mapFindRemove_ne hkne]
      exact hk'
  · intro p hp
    have hp2 : p ∈ c.heap ++ [(c.nextId, (k, v))] := (heapErase_sublist _ _).subset hp
    rcases List.mem_append.mp hp2 with h1 | h2
    · exact (hw.heapLt p h1).trans (Nat.lt_succ_self _)
    · simp only [List.mem_singleton] at h2
      rw [h2]
      exact Nat.lt_succ_self _

theorem WF.heapAppendNodup [DecidableEq K] {c : LruCache K V} (hw : WF c) (kv : K × V) :
    ((c.heap ++ [(c.nextId, kv)]).map Prod.fst).Nodup := by
  rw [List.map_append]
  refine hw.nodupHeap.append (List.nodup_singleton _) ?_
  intro a ha hb
  simp only [List.map_cons, List.map_nil, List.mem_singleton] at hb
  subst hb
  exact (heapFind_eq_none.mp hw.heapFresh) ha

theorem WF.heapAppendLt [DecidableEq K] {c : LruCache K V} (hw : WF c) (kv : K × V) :
    ∀ p ∈ c.heap ++ [(c.nextId, kv)], p.1 < c.nextId + 1 := by
  intro p hp
  rcases List.mem_append.mp hp with h1 | h2
  · exact (hw.heapLt p h1).trans (Nat.lt_succ_self _)
  · simp only [List.mem_singleton] at h2
    rw [h2]
    exact Nat.lt_succ_self _

theorem WF.heapAppendFindNew [DecidableEq K] {c : LruCache K V} (hw : WF c) (kv : K × V) :
    heapFind c.nextId (c.heap ++ [(c.nextId, kv)]) = some kv := by
  rw [heapFind_append_right hw.heapFresh]
  simp [heapFind]

theorem WF_put_new_noevict [DecidableEq K] {c : LruCache K V} {k : K} {v : V}
    (hw : WF c) (hm : mapFind k c.map = none) (hlen : c.map.length < c.cap) :
    WF { order := c.nextId :: c.order,
         heap := c.heap ++ [(c.nextId, (k, v))],
         map := (k, c.nextId) :: c.map,
         cap := c.cap, nextId := c.nextId + 1, freed := c.freed } := by
  have hnid_fresh_order : c.nextId ∉ c.order := fun h => Nat.lt_irrefl _ (hw.orderLt h)
  refine ⟨?_, ?_, ?_, hw.capPos, ?_, ?_, hw.heapAppendNodup (k, v), ?_, ?_,
      hw.heapAppendLt (k, v)⟩
  · exact List.nodup_cons.mpr ⟨hnid_fresh_order, hw.nodupOrder⟩
  · simp only [List.length_cons, hw.lenEq]
  · simp only [List.length_cons]
    have := hw.lenEq
    omega
  · exact List.nodup_cons.mpr ⟨mapFind_eq_none.mp hm, hw.nodupKeys⟩
  · refine List.nodup_cons.mpr ⟨?_, hw.nodupIds⟩
    intro hmem
    obtain ⟨p, hp, he⟩ := List.mem_map.mp hmem
    exact Nat.lt_irrefl _ (he ▸ hw.mapIdLt hp)
  · intro k' i' hfind
    simp only [mapFind] at hfind
    by_cases hk : k' = k
    · subst hk
      rw [if_pos rfl] at hfind
      obtain rfl := Option.some.inj hfind
      exact ⟨List.mem_cons_self _ _, v, hw.heapAppendFindNew (k', v)⟩
    · rw [if_neg hk] at hfind
      obtain ⟨hmem', v', hv'⟩ := hw.mapSound k' i' hfind
      exact ⟨List.mem_cons_of_mem _ hmem', v', heapFind_append_left hv'⟩
  · intro i hi
    rcases List.mem_cons.mp hi with rfl | hi₂
    · exact ⟨k, by simp [mapFind]⟩
    · obtain ⟨k', hk'⟩ := hw.orderComplete i hi₂
      have hkne : k' ≠ k := by
        intro h0
        rw [h0, hm] at hk'
        exact Option.noConfusion hk'
      exact ⟨k', by simp only [mapFind, if_neg hkne]; exact hk'⟩

theorem WF_put_new_evict [DecidableEq K] {c : LruCache K V} {k : K} {v : V}
    {tid : Nat} {kt : K} {vt : V}
    (hw : WF c) (hm : mapFind k c.map = none)
    (htid : c.order.getLast? = some tid)
    (hvt : heapFind tid c.heap = some (kt, vt))
    (hmt : mapFind kt c.map = some tid) :
    WF { order := c.nextId :: c.order.erase tid,
         heap := c.heap ++ [(c.nextId, (k, v))],
         map := (k, c.nextId) :: (mapFindRemove kt c.map).2,
         cap := c.cap, nextId := c.nextId + 1, freed := c.freed } := by
  set m2 := (mapFindRemove kt c.map).2 with hm2
  have hperm : c.map.Perm ((kt, tid) :: m2) := mapFindRemove_perm hmt
  have hkeysperm : (c.map.map Prod.fst).Perm (kt :: m2.map Prod.fst) := by
    simpa using hperm.map Prod.fst
  have hidsperm : (c.map.map Prod.snd).Perm (tid :: m2.map Prod.snd) := by
    simpa using hperm.map Prod.snd
  have hkeys : kt ∉ m2.map Prod.fst ∧ (m2.map Prod.fst).Nodup := by
    have := hkeysperm.nodup_iff.mp hw.nodupKeys
    simpa [List.nodup_cons] using this
  have hids : tid ∉ m2.map Prod.snd ∧ (m2.map Prod.snd).Nodup := by
    have := hidsperm.nodup_iff.mp hw.nodupIds
    simpa [List.nodup_cons] using this
  have htmem : tid ∈ c.order := getLast?_mem_of_eq htid
  have hkkt : k ≠ kt := by
    intro h0
    rw [h0, hmt] at hm
    exact Option.noConfusion hm
  have hknotm2 : k ∉ m2.map Prod.fst := by
    intro hmem
    exact (mapFind_eq_none.mp hm) (hkeysperm.symm.subset (List.mem_cons_of_mem _ hmem))
  have hnid_fresh_order : c.nextId ∉ c.order := fun h => Nat.lt_irrefl _ (hw.orderLt h)
  have horderlen : 0 < c.order.length := List.length_pos.mpr (List.ne_nil_of_mem htmem)
  have hmaplen : c.map.length = m2.length + 1 := by simpa using hperm.length_eq
  have heraselen : (c.order.erase tid).length = c.order.length - 1 :=
    List.length_erase_of_mem htmem
  have hm2lt : ∀ p ∈ m2, p.2 < c.nextId := fun p hp =>
    hw.mapIdLt (hperm.symm.subset (List.mem_cons_of_mem _ hp))
  refine ⟨?_, ?_, ?_, hw.capPos, ?_, ?_, hw.heapAppendNodup (k, v), ?_, ?_,
      hw.heapAppendLt (k, v)⟩
  · refine List.nodup_cons.mpr ⟨?_, hw.nodupOrder.erase tid⟩
    intro h
    exact hnid_fresh_order ((c.order.erase_sublist tid).subset h)
  · simp only [List.length_cons, heraselen]
    have := hw.lenEq
    omega
  · simp only [List.length_cons, heraselen]
    have := hw.lenLe
    omega
  · exact List.nodup_cons.mpr ⟨hknotm2, hkeys.2⟩
  · refine List.nodup_cons.mpr ⟨?_, hids.2⟩
    intro hmem
    obtain ⟨p, hp, he⟩ := List.mem_map.mp hmem
    exact Nat.lt_irrefl _ (he ▸ hm2lt p hp)
  · intro k' i' hfind
    simp only [mapFind] at hfind
    by_cases hk : k' = k
    · subst hk
      rw [if_pos rfl] at hfind
      obtain rfl := Option.some.inj hfind
      exact ⟨List.mem_cons_self _ _, v, hw.heapAppendFindNew (k', v)⟩
    · rw [if_neg hk] at hfind
      by_cases hkt : k' = kt
      · subst hkt
        rw [hm2, mapFind_mapFindRemove_self hw.nodupKeys] at hfind
        exact Option.noConfusion hfind
      · rw [hm2, mapFind_mapFindRemove_ne hkt] at hfind
        obtain ⟨hmem', v', hv'⟩ := hw.mapSound k' i' hfind
        have hne_tid : i' ≠ tid := by
          intro h0
          exact hkt (mapFind_inj hw.nodupIds (h0 ▸ hfind) hmt)
        refine ⟨List.mem_cons_of_mem _ ((List.mem_erase_of_ne hne_tid).mpr hmem'), v', ?_⟩
        exact heapFind_append_left hv'
  · intro i hi
    rcases List.mem_cons.mp hi with rfl | hi₂
    · exact ⟨k, by simp [mapFind]⟩
    · have hmem' : i ∈ c.order := (c.order.erase_sublist tid).subset hi₂
      have hne : i ≠ tid := by
        intro h0
        rw [h0] at hi₂
        exact hw.nodupOrder.not_mem_erase hi₂
      obtain ⟨k', hk'⟩ := hw.orderComplete i hmem'
      have hkne : k' ≠ k := by
        intro h0
        rw [h0, hm] at hk'
        exact Option.noConfusion hk'
      have hktne : k' ≠ kt := by
        intro h0
        rw [h0, hmt] at hk'
        exact hne (Option.some.inj hk').symm
      refine ⟨k', ?_⟩
      simp only [mapFind, if_neg hkne, hm2]
      rw [mapFind_mapFindRemove_ne hktne]
      exact hk'

theorem WF_get_found [DecidableEq K] {c : LruCache K V} {k : K} {i : Nat}
    (hw : WF c) (hm : mapFind k c.map = some i) :
    WF { c with order := i :: c.order.erase i } := by
  have hmem : i ∈ c.order := (hw.mapSound k i hm).1
  have horderlen : 0 < c.order.length := List.length_pos.mpr (List.ne_nil_of_mem hmem)
  have heraselen : (c.order.erase i).length = c.order.length - 1 :=
    List.length_erase_of_mem hmem
  refine ⟨?_, ?_, ?_, hw.capPos, hw.nodupKeys, hw.nodupIds, hw.nodupHeap, ?_, ?_, hw.heapLt⟩
  · exact List.nodup_cons.mpr ⟨hw.nodupOrder.not_mem_erase, hw.nodupOrder.erase i⟩
  · simp only [List.length_cons, heraselen]
    have := hw.lenEq
    omega
  · simp only [List.length_cons, heraselen]
    have := hw.lenLe
    omega
  · intro k' i' hfind
    obtain ⟨hmem', v', hv'⟩ := hw.mapSound k' i' hfind
    by_cases hii : i' = i
    · subst hii
      exact ⟨List.mem_cons_self _ _, v', hv'⟩
    · exact ⟨List.mem_cons_of_mem _ ((List.mem_erase_of_ne hii).mpr hmem'), v', hv'⟩
  · intro j hj
    rcases List.mem_cons.mp hj with rfl | hj₂
    · exact hw.orderComplete j hmem
    · exact hw.orderComplete j ((c.order.erase_sublist i).subset hj₂)

/-! ### Totality and preservation, glued -/

theorem put_total [DecidableEq K] {c : LruCache K V} (hw : WF c) (k : K) (v : V) :
    ∃ r c', put c k v = some (r, c') := by
  cases hmk : mapFind k c.map with
  | some oid =>
    obtain ⟨vold, -, heq⟩ := put_found v hw hmk
    exact ⟨some vold, _, heq⟩
  | none =>
    by_cases hlen : c.map.length < c.cap
    · exact ⟨none, _, put_new_noevict v hmk hlen⟩
    · obtain ⟨tid, kt, vt, -, -, -, heq⟩ := put_new_evict v hw hmk (Nat.le_of_not_lt hlen)
      exact ⟨none, _, heq⟩

theorem get_total [DecidableEq K] {c : LruCache K V} (hw : WF c) (k : K) :
    ∃ r c', get c k = some (r, c') := by
  cases hmk : mapFind k c.map with
  | none => exact ⟨none, c, get_miss hmk⟩
  | some i =>
    obtain ⟨v, -, heq⟩ := get_found hw hmk
    exact ⟨some v, _, heq⟩

theorem put_WF [DecidableEq K] {c : LruCache K V} {k : K} {v : V} {r : Option V}
    {c' : LruCache K V} (hw : WF c) (hput : put c k v = some (r, c')) : WF c' := by
  cases hmk : mapFind k c.map with
  | some oid =>
    obtain ⟨vold, -, heq⟩ := put_found v hw hmk
    rw [heq] at hput
    simp only [Option.some.injEq, Prod.mk.injEq] at hput
    obtain ⟨rfl, rfl⟩ := hput
    exact WF_put_found hw hmk
  | none =>
    by_cases hlen : c.map.length < c.cap
    · rw [put_new_noevict v hmk hlen] at hput
      simp only [Option.some.injEq, Prod.mk.injEq] at hput
      obtain ⟨rfl, rfl⟩ := hput
      exact WF_put_new_noevict hw hmk hlen
    · obtain ⟨tid, kt, vt, htid, hvt, hmt, heq⟩ :=
        put_new_evict v hw hmk (Nat.le_of_not_lt hlen)
      rw [heq] at hput
      simp only [Option.some.injEq, Prod.mk.injEq] at hput
      obtain ⟨rfl, rfl⟩ := hput
      exact WF_put_new_evict hw hmk htid hvt hmt

theorem get_WF [DecidableEq K] {c : LruCache K V} {k : K} {r : Option V}
    {c' : LruCache K V} (hw : WF c) (hget : get c k = some (r, c')) : WF c' := by
  cases hmk : mapFind k c.map with
  | none =>
    rw [get_miss hmk] at hget
    simp only [Option.some.injEq, Prod.mk.injEq] at hget
    obtain ⟨rfl, rfl⟩ := hget
    exact hw
  | some i =>
    obtain ⟨v, -, heq⟩ := get_found hw hmk
    rw [heq] at hget
    simp only [Option.some.injEq, Prod.mk.injEq] at hget
    obtain ⟨rfl, rfl⟩ := hget
    exact WF_get_found hw hmk

/-! ### Recency ordering -/

theorem mem_orderKeys {c : LruCache K V} {k : K} :
    k ∈ orderKeys c ↔ ∃ i ∈ c.order, ∃ v, heapFind i c.heap = some (k, v) := by
  constructor
  · intro h
    obtain ⟨i, hi, hf⟩ := List.mem_filterMap.mp h
    obtain ⟨kv, hkv, he⟩ := Option.map_eq_some'.mp hf
    refine ⟨i, hi, kv.2, ?_⟩
    rw [hkv]
    exact congrArg some (Prod.ext he rfl)
  · rintro ⟨i, hi, v, hv⟩
    exact List.mem_filterMap.mpr ⟨i, hi, by rw [hv]; rfl⟩

theorem WF.mem_orderKeys_find [DecidableEq K] {c : LruCache K V} (hw : WF c) {k : K}
    (h : k ∈ orderKeys c) : ∃ i, mapFind k c.map = some i := by
  obtain ⟨i, hi, v, hv⟩ := mem_orderKeys.mp h
  exact ⟨i, hw.keyFind hi hv⟩

theorem recency_cons [DecidableEq K] {t : List (Op K V)} {op : Op K V} {k : K}
    (hk : opKey op = k) {l rest : List K}
    (hsub : rest.Sublist l)
    (hpw : l.Pairwise fun a b => lastTouch t b < lastTouch t a)
    (hne : ∀ b ∈ rest, b ≠ k) :
    (k :: rest).Pairwise fun a b => lastTouch (t ++ [op]) b < lastTouch (t ++ [op]) a := by
  have hrest : rest.Pairwise fun a b => lastTouch t b < lastTouch t a := hpw.sublist hsub
  refine List.pairwise_cons.mpr ⟨?_, ?_⟩
  · intro b hb
    rw [lastTouch_concat, lastTouch_concat, hk]
    rw [if_pos rfl, if_neg (fun h => hne b hb h.symm)]
    exact Nat.lt_succ_of_le (lastTouch_le_length t b)
  · refine hrest.imp_of_mem ?_
    intro a b ha hb hlt
    rw [lastTouch_concat, lastTouch_concat, hk]
    rw [if_neg (fun h => hne b hb h.symm), if_neg (fun h => hne a ha h.symm)]
    exact hlt

theorem recency_shift [DecidableEq K] {t : List (Op K V)} {c c' : LruCache K V}
    (hrs : RecencySorted t c) {op : Op K V} {k : K} (hk : opKey op = k)
    {hid : Nat} {l : List Nat} {v : V}
    (horder : c'.order = hid :: l)
    (hl : l.Sublist c.order)
    (hheap : ∀ j ∈ l, heapFind j c'.heap = heapFind j c.heap)
    (hnew : heapFind hid c'.heap = some (k, v))
    (hnk : ∀ j ∈ l, ∀ v₂ : V, heapFind j c.heap ≠ some (k, v₂)) :
    RecencySorted (t ++ [op]) c' := by
  have horderKeys :
      orderKeys c' = k :: l.filterMap fun j => (heapFind j c.heap).map Prod.fst := by
    rw [orderKeys, horder, List.filterMap_cons]
    simp only [hnew, Option.map_some']
    congr 1
    exact List.filterMap_congr fun j hj => by rw [hheap j hj]
  rw [RecencySorted, horderKeys]
  refine recency_cons hk (hl.filterMap _) hrs ?_
  intro b hb
  obtain ⟨j, hj, hf⟩ := List.mem_filterMap.mp hb
  obtain ⟨kv, hkv, he⟩ := Option.map_eq_some'.mp hf
  intro h0
  refine hnk j hj kv.2 ?_
  rw [hkv]
  exact congrArg some (Prod.ext (he.trans h0) rfl)

theorem RS_put [DecidableEq K] {t : List (Op K V)} {c : LruCache K V} {k : K} {v : V}
    {r : Option V} {c' : LruCache K V}
    (hw : WF c) (hrs : RecencySorted t c) (hput : put c k v = some (r, c')) :
    RecencySorted (t ++ [Op.put k v]) c' := by
  cases hmk : mapFind k c.map with
  | some oid =>
    obtain ⟨vold, hvold, heq⟩ := put_found v hw hmk
    rw [heq] at hput
    simp only [Option.some.injEq, Prod.mk.injEq] at hput
    obtain ⟨rfl, rfl⟩ := hput
    have hnid_ne_oid : c.nextId ≠ oid := ne_of_gt (hw.mapLt hmk)
    have hnew : heapFind c.nextId (heapErase oid (c.heap ++ [(c.nextId, (k, v))]))
        = some (k, v) := by
      rw [heapFind_heapErase_ne hnid_ne_oid, heapFind_append_right hw.heapFresh]
      simp [heapFind]
    refine recency_shift hrs (show opKey (Op.put k v) = k from rfl) rfl
      (c.order.erase_sublist oid) ?_ hnew ?_
    · intro j hj
      have hjo : j ∈ c.order := (c.order.erase_sublist oid).subset hj
      have hjne : j ≠ oid := fun h0 => hw.nodupOrder.not_mem_erase (h0 ▸ hj)
      obtain ⟨kj, vj, hfj, -⟩ := hw.orderHeap hjo
      show heapFind j (heapErase oid (c.heap ++ [(c.nextId, (k, v))])) = heapFind j c.heap
      rw [heapFind_heapErase_ne hjne, heapFind_append_left hfj, hfj]
    · intro j hj v₂ hfj
      have hjo : j ∈ c.order := (c.order.erase_sublist oid).subset hj
      have hjne : j ≠ oid := fun h0 => hw.nodupOrder.not_mem_erase (h0 ▸ hj)
      have hfind := hw.keyFind hjo hfj
      rw [hmk] at hfind
      exact hjne (Option.some.inj hfind).symm
  | none =>
    have hnk : ∀ j ∈ c.order, ∀ v₂ : V, heapFind j c.heap ≠ some (k, v₂) := by
      intro j hj v₂ hfj
      have hfind := hw.keyFind hj hfj
      rw [hmk] at hfind
      exact Option.noConfusion hfind
    by_cases hlen : c.map.length < c.cap
    · rw [put_new_noevict v hmk hlen] at hput
      simp only [Option.some.injEq, Prod.mk.injEq] at hput
      obtain ⟨rfl, rfl⟩ := hput
      refine recency_shift hrs (show opKey (Op.put k v) = k from rfl) rfl
        (List.Sublist.refl c.order) ?_
        (hw.heapAppendFindNew (k, v)) (fun j hj => hnk j hj)
      intro j hj
      obtain ⟨kj, vj, hfj, -⟩ := hw.orderHeap hj
      show heapFind j (c.heap ++ [(c.nextId, (k, v))]) = heapFind j c.heap
      rw [heapFind_append_left hfj, hfj]
    · obtain ⟨tid, kt, vt, htid, hvt, hmt, heq⟩ :=
        put_new_evict v hw hmk (Nat.le_of_not_lt hlen)
      rw [heq] at hput
      simp only [Option.some.injEq, Prod.mk.injEq] at hput
      obtain ⟨rfl, rfl⟩ := hput
      refine recency_shift hrs (show opKey (Op.put k v) = k from rfl) rfl
        (c.order.erase_sublist tid) ?_
        (hw.heapAppendFindNew (k, v))
        (fun j hj => hnk j ((c.order.erase_sublist tid).subset hj))
      intro j hj
      have hjo : j ∈ c.order := (c.order.erase_sublist tid).subset hj
      obtain ⟨kj, vj, hfj, -⟩ := hw.orderHeap hjo
      show heapFind j (c.heap ++ [(c.nextId, (k, v))]) = heapFind j c.heap
      rw [heapFind_append_left hfj, hfj]

theorem RS_get [DecidableEq K] {t : List (Op K V)} {c : LruCache K V} {k : K}
    {r : Option V} {c' : LruCache K V}
    (hw : WF c) (hrs : RecencySorted t c) (hget : get c k = some (r, c')) :
    RecencySorted (t ++ [Op.get k]) c' := by
  cases hmk : mapFind k c.map with
  | none =>
    rw [get_miss hmk] at hget
    simp only [Option.some.injEq, Prod.mk.injEq] at hget
    obtain ⟨rfl, rfl⟩ := hget
    show (orderKeys c).Pairwise fun a b =>
      lastTouch (t ++ [Op.get k]) b < lastTouch (t ++ [Op.get k]) a
    have hrs₂ : (orderKeys c).Pairwise fun a b => lastTouch t b < lastTouch t a := hrs
    refine hrs₂.imp_of_mem ?_
    intro a b ha hb hlt
    have hane : a ≠ k := by
      intro h0
      obtain ⟨i, hi⟩ := hw.mem_orderKeys_find (h0 ▸ ha)
      rw [hmk] at hi
      exact Option.noConfusion hi
    have hbne : b ≠ k := by
      intro h0
      obtain ⟨i, hi⟩ := hw.mem_orderKeys_find (h0 ▸ hb)
      rw [hmk] at hi
      exact Option.noConfusion hi
    rw [lastTouch_concat, lastTouch_concat]
    simp only [opKey]
    rw [if_neg (fun h => hbne h.symm), if_neg (fun h => hane h.symm)]
    exact hlt
  | some i =>
    obtain ⟨v, hv, heq⟩ := get_found hw hmk
    rw [heq] at hget
    simp only [Option.some.injEq, Prod.mk.injEq] at hget
    obtain ⟨rfl, rfl⟩ := hget
    refine recency_shift hrs (show opKey (Op.get k) = k from rfl) rfl
      (c.order.erase_sublist i) (fun j hj => rfl) hv ?_
    intro j hj v₂ hfj
    have hjo : j ∈ c.order := (c.order.erase_sublist i).subset hj
    have hjne : j ≠ i := fun h0 => hw.nodupOrder.not_mem_erase (h0 ▸ hj)
    have hfind := hw.keyFind hjo hfj
    rw [hmk] at hfind
    exact hjne (Option.some.inj hfind).symm

/-! ### The reachability invariant -/

theorem WF_init [DecidableEq K] {cap : Nat} (hcap : 0 < cap) :
    WF (LruCache.mk ([] : List Nat) ([] : List (Nat × K × V)) [] cap 0 []) := by
  refine ⟨List.nodup_nil, rfl, Nat.zero_le _, hcap, List.nodup_nil, List.nodup_nil,
      List.nodup_nil, ?_, ?_, ?_⟩
  · intro k i h
    exact Option.noConfusion h
  · intro i hi
    simp at hi
  · intro p hp
    simp at hp

theorem run_concat [DecidableEq K] (cap : Nat) (t : List (Op K V)) (op : Op K V) :
    run cap (t ++ [op]) = stepOp (run cap t) op := by
  simp [run, List.foldl_append]

theorem run_some [DecidableEq K] {cap : Nat} {t : List (Op K V)} {c : LruCache K V}
    (h : run cap t = some c) : WF c ∧ RecencySorted t c := by
  induction t using List.reverseRecOn generalizing c with
  | nil =>
    rw [run, List.foldl_nil, new] at h
    by_cases hcap : 0 < cap
    · rw [if_pos hcap] at h
      obtain rfl := Option.some.inj h
      exact ⟨WF_init hcap, List.Pairwise.nil⟩
    · rw [if_neg hcap] at h
      exact Option.noConfusion h
  | append_singleton t op ih =>
    rw [run_concat] at h
    cases hr : run cap t with
    | none =>
      rw [hr] at h
      exact Option.noConfusion h
    | some c₀ =>
      rw [hr] at h
      obtain ⟨hw₀, hrs₀⟩ := ih hr
      cases op with
      | put k v =>
        simp only [stepOp] at h
        obtain ⟨rc, hput, hc⟩ := Option.map_eq_some'.mp h
        obtain ⟨r, c₁⟩ := rc
        obtain rfl : c₁ = c := hc
        exact ⟨put_WF hw₀ hput, RS_put hw₀ hrs₀ hput⟩
      | get k =>
        simp only [stepOp] at h
        obtain ⟨rc, hget, hc⟩ := Option.map_eq_some'.mp h
        obtain ⟨r, c₁⟩ := rc
        obtain rfl : c₁ = c := hc
        exact ⟨get_WF hw₀ hget, RS_get hw₀ hrs₀ hget⟩

theorem filterMap_getLast {K : Type} {f : Nat → Option K} :
    ∀ (l : List Nat) (a : Nat) (b : K), l.getLast? = some a → f a = some b →
      (∀ x ∈ l, (f x).isSome) → (l.filterMap f).getLast? = some b := by
  intro l
  induction l with
  | nil =>
    intro a b hl hf htot
    simp at hl
  | cons x rest ih =>
    intro a b hl hf htot
    cases rest with
    | nil =>
      simp only [List.getLast?_singleton, Option.some.injEq] at hl
      subst hl
      simp [List.filterMap_cons, hf]
    | cons y ys =>
      rw [List.getLast?_cons_cons] at hl
      have hrec := ih a b hl hf (fun z hz => htot z (List.mem_cons_of_mem _ hz))
      cases hfx : f x with
      | none =>
        have hx := htot x (List.mem_cons_self _ _)
        rw [hfx] at hx
        exact absurd hx (by simp)
      | some bx =>
        have hstep : List.filterMap f (x :: y :: ys) = bx :: List.filterMap f (y :: ys) := by
          simp only [List.filterMap_cons, hfx]
        cases hl2 : List.filterMap f (y :: ys) with
        | nil =>
          rw [hl2] at hrec
          simp at hrec
        | cons z zs =>
          rw [hl2] at hrec
          rw [hstep, hl2, List.getLast?_cons_cons]
          exact hrec

/-! ### The claims -/

/-- C1: for every reachable cache state and every `put` of a key not
currently present that triggers eviction (the index still holds at least
`cap` entries), the key removed from the cache is exactly the tail of the
recency list, and its most recent touch (by `put` or `get`) is oldest
among all keys present before the call. -/
theorem put_evicts_least_recently_touched [DecidableEq K]
    {cap : Nat} {t : List (Op K V)} {c : LruCache K V} {k : K} {v : V}
    {r : Option V} {c' : LruCache K V}
    (hrun : run cap t = some c)
    (habs : mapFind k c.map = none)
    (hfull : c.cap ≤ c.map.length)
    (hput : put c k v = some (r, c')) :
    ∃ ke, (orderKeys c).getLast? = some ke ∧
      (∀ k₂ ∈ orderKeys c, (mapFind k₂ c'.map = none ↔ k₂ = ke)) ∧
      ∀ k₂ ∈ orderKeys c, lastTouch t ke ≤ lastTouch t k₂ := by
  obtain ⟨hw, hrs⟩ := run_some hrun
  obtain ⟨tid, kt, vt, htid, hvt, hmt, heq⟩ := put_new_evict v hw habs hfull
  rw [heq] at hput
  simp only [Option.some.injEq, Prod.mk.injEq] at hput
  obtain ⟨rfl, rfl⟩ := hput
  have hgetLast : (orderKeys c).getLast? = some kt := by
    refine filterMap_getLast c.order tid kt htid (by rw [hvt]; rfl) ?_
    intro x hx
    obtain ⟨kx, vx, hfx, -⟩ := hw.orderHeap hx
    rw [hfx]
    rfl
  refine ⟨kt, hgetLast, ?_, ?_⟩
  · intro k₂ hk₂
    obtain ⟨i₂, hfind₂⟩ := hw.mem_orderKeys_find hk₂
    have hk₂ne : k₂ ≠ k := by
      intro h0
      rw [h0, habs] at hfind₂
      exact Option.noConfusion hfind₂
    constructor
    · intro hnone
      by_contra hne
      simp only [mapFind, if_neg hk₂ne] at hnone
      rw [mapFind_mapFindRemove_ne hne, hfind₂] at hnone
      exact Option.noConfusion hnone
    · intro h0
      subst h0
      simp only [mapFind, if_neg hk₂ne]
      exact mapFind_mapFindRemove_self hw.nodupKeys
  · have hrs₂ : (orderKeys c).Pairwise fun a b => lastTouch t b < lastTouch t a := hrs
    have hmin := pairwise_getLast_min hrs₂ hgetLast
    intro k₂ hk₂
    rcases hmin k₂ hk₂ with rfl | hlt
    · exact Nat.le_refl _
    · exact Nat.le_of_lt hlt

/-- C2: on every reachable cache, the index size after a `put` equals
`min (size_before + (1 if the key was absent else 0)) cap`; consequently
the size never exceeds the capacity. -/
theorem put_size_eq_min [DecidableEq K]
    {cap : Nat} {t : List (Op K V)} {c : LruCache K V} {k : K} {v : V}
    {r : Option V} {c' : LruCache K V}
    (hrun : run cap t = some c) (hput : put c k v = some (r, c')) :
    c'.map.length
        = min (c.map.length + (if mapFind k c.map = none then 1 else 0)) c.cap ∧
      c'.map.length ≤ c.cap := by
  obtain ⟨hw, -⟩ := run_some hrun
  have hle : c.map.length ≤ c.cap := hw.lenEq ▸ hw.lenLe
  cases hmk : mapFind k c.map with
  | some oid =>
    obtain ⟨vold, -, heq⟩ := put_found v hw hmk
    rw [heq] at hput
    simp only [Option.some.injEq, Prod.mk.injEq] at hput
    obtain ⟨rfl, rfl⟩ := hput
    have hlen : c.map.length = (mapFindRemove k c.map).2.length + 1 := by
      simpa using (mapFindRemove_perm hmk).length_eq
    rw [if_neg (Option.some_ne_none oid)]
    simp only [List.length_cons]
    omega
  | none =>
    by_cases hlen : c.map.length < c.cap
    · rw [put_new_noevict v hmk hlen] at hput
      simp only [Option.some.injEq, Prod.mk.injEq] at hput
      obtain ⟨rfl, rfl⟩ := hput
      rw [if_pos rfl]
      simp only [List.length_cons]
      omega
    · obtain ⟨tid, kt, vt, htid, hvt, hmt, heq⟩ :=
        put_new_evict v hw hmk (Nat.le_of_not_lt hlen)
      rw [heq] at hput
      simp only [Option.some.injEq, Prod.mk.injEq] at hput
      obtain ⟨rfl, rfl⟩ := hput
      have hlen₂ : c.map.length = (mapFindRemove kt c.map).2.length + 1 := by
        simpa using (mapFindRemove_perm hmt).length_eq
      rw [if_pos rfl]
      simp only [List.length_cons]
      omega

/-- C3: on every reachable cache in which key `k` currently holds
`vold`, a `put` of `k` returns `vold` and leaves the index size
unchanged. -/
theorem put_existing_key_returns_previous [DecidableEq K]
    {cap : Nat} {t : List (Op K V)} {c : LruCache K V} {k : K} {vold : V} (vnew : V)
    (hrun : run cap t = some c) (hval : valueOf c k = some vold) :
    ∃ c', put c k vnew = some (some vold, c') ∧ c'.map.length = c.map.length := by
  obtain ⟨hw, -⟩ := run_some hrun
  obtain ⟨i, hmk, hv⟩ :
      ∃ i, mapFind k c.map = some i ∧ (heapFind i c.heap).map Prod.snd = some vold := by
    cases hmk : mapFind k c.map with
    | none =>
      rw [valueOf, hmk, Option.none_bind] at hval
      exact Option.noConfusion hval
    | some i =>
      rw [valueOf, hmk, Option.some_bind] at hval
      exact ⟨i, rfl, hval⟩
  obtain ⟨vold₂, hfound, heq⟩ := put_found vnew hw hmk
  rw [hfound] at hv
  simp only [Option.map_some', Option.some.injEq] at hv
  subst hv
  refine ⟨_, heq, ?_⟩
  have hlen : c.map.length = (mapFindRemove k c.map).2.length + 1 := by
    simpa using (mapFindRemove_perm hmk).length_eq
  simp only [List.length_cons]
  omega

/-- C4: on every reachable cache, a `put` of `(k, v)` immediately
followed by `get k` returns `v`. -/
theorem put_then_get_returns_value [DecidableEq K]
    {cap : Nat} {t : List (Op K V)} {c : LruCache K V} {k : K} {v : V}
    {r : Option V} {c₁ : LruCache K V}
    (hrun : run cap t = some c) (hput : put c k v = some (r, c₁)) :
    ∃ c₂, get c₁ k = some (some v, c₂) := by
  obtain ⟨hw, -⟩ := run_some hrun
  have hw₁ : WF c₁ := put_WF hw hput
  have hkey : mapFind k c₁.map = some c.nextId ∧ heapFind c.nextId c₁.heap = some (k, v) := by
    cases hmk : mapFind k c.map with
    | some oid =>
      obtain ⟨vold, -, heq⟩ := put_found v hw hmk
      rw [heq] at hput
      simp only [Option.some.injEq, Prod.mk.injEq] at hput
      obtain ⟨rfl, rfl⟩ := hput
      refine ⟨by simp [mapFind], ?_⟩
      rw [heapFind_heapErase_ne (ne_of_gt (hw.mapLt hmk)),
        heapFind_append_right hw.heapFresh]
      simp [heapFind]
    | none =>
      by_cases hlen : c.map.length < c.cap
      · rw [put_new_noevict v hmk hlen] at hput
        simp only [Option.some.injEq, Prod.mk.injEq] at hput
        obtain ⟨rfl, rfl⟩ := hput
        exact ⟨by simp [mapFind], hw.heapAppendFindNew (k, v)⟩
      · obtain ⟨tid, kt, vt, htid, hvt, hmt, heq⟩ :=
          put_new_evict v hw hmk (Nat.le_of_not_lt hlen)
        rw [heq] at hput
        simp only [Option.some.injEq, Prod.mk.injEq] at hput
        obtain ⟨rfl, rfl⟩ := hput
        exact ⟨by simp [mapFind], hw.heapAppendFindNew (k, v)⟩
  obtain ⟨v₂, hv₂, hgeq⟩ := get_found hw₁ hkey.1
  rw [hkey.2] at hv₂
  simp only [Option.some.injEq, Prod.mk.injEq] at hv₂
  obtain ⟨-, rfl⟩ := hv₂
  exact ⟨_, hgeq⟩

/-- C5: on every reachable cache, the keys resolvable via `get` are
exactly the keys of the nodes in the recency list, and the index binds
each such key to exactly the one live listed node holding it. -/
theorem index_list_bijection [DecidableEq K]
    {cap : Nat} {t : List (Op K V)} {c : LruCache K V}
    (hrun : run cap t = some c) :
    (∀ k, (∃ v c₂, get c k = some (some v, c₂)) ↔ k ∈ orderKeys c) ∧
      ∀ k, k ∈ orderKeys c →
        ∃ i, mapFind k c.map = some i ∧ i ∈ c.order ∧
          (∃ v, heapFind i c.heap = some (k, v)) ∧
          ∀ j ∈ c.order, (∃ v, heapFind j c.heap = some (k, v)) → j = i := by
  obtain ⟨hw, -⟩ := run_some hrun
  constructor
  · intro k
    constructor
    · rintro ⟨v, c₂, hg⟩
      cases hmk : mapFind k c.map with
      | none =>
        rw [get_miss hmk] at hg
        simp at hg
      | some i =>
        obtain ⟨hmem, v₂, hv₂⟩ := hw.mapSound k i hmk
        exact mem_orderKeys.mpr ⟨i, hmem, v₂, hv₂⟩
    · intro hk
      obtain ⟨i, hmk⟩ := hw.mem_orderKeys_find hk
      obtain ⟨v, -, hgeq⟩ := get_found hw hmk
      exact ⟨v, _, hgeq⟩
  · intro k hk
    obtain ⟨i, hmk⟩ := hw.mem_orderKeys_find hk
    obtain ⟨hmem, v, hv⟩ := hw.mapSound k i hmk
    refine ⟨i, hmk, hmem, ⟨v, hv⟩, ?_⟩
    rintro j hj ⟨vj, hvj⟩
    have hfind := hw.keyFind hj hvj
    rw [hmk] at hfind
    exact (Option.some.inj hfind).symm

/-- C6: on every cache state, `get` of a key not bound in the index
returns the empty result and leaves the state completely unchanged
(size, key set, values and recency order included). -/
theorem get_absent_is_noop [DecidableEq K] {c : LruCache K V} {k : K}
    (hm : mapFind k c.map = none) : get c k = some (none, c) :=
  get_miss hm

/-- C7: construction panics (produces no cache) exactly when the
capacity is zero, and yields an empty usable cache with the requested
capacity for every positive capacity. -/
theorem new_capacity_contract (K V : Type) (cap : Nat) :
    (cap = 0 → (new cap : Option (LruCache K V)) = none) ∧
      (0 < cap → ∃ c : LruCache K V,
        new cap = some c ∧ c.cap = cap ∧ c.order = [] ∧ c.map = []) := by
  constructor
  · intro h0
    rw [new, h0]
    simp
  · intro hpos
    exact ⟨_, by rw [new, if_pos hpos], rfl, rfl, rfl⟩

/-- C8: evaluation of the code at a failing input for the release
claim: with capacity 1, `put 1 10` then `put 2 20` evicts node `0`, yet
after destroying the cache both allocated nodes are still held in live
storage and nothing was ever passed back to `Box::from_raw` — the code
releases no node (eviction omits the reclaim, and the destructor drops a
raw pointer, a no-op). -/
theorem dropLru_releases_nothing :
    ∃ c : LruCache Nat Nat, run 1 [Op.put 1 10, Op.put 2 20] = some c ∧
      (dropLru c).heap = [(0, (1, 10)), (1, (2, 20))] ∧ (dropLru c).freed = [] :=
  ⟨_, rfl, rfl, rfl⟩

/-- C9: for every positive capacity, `get` on a freshly constructed
cache returns the empty result for every key. -/
theorem get_on_fresh_cache_none [DecidableEq K] {cap : Nat} {c : LruCache K V}
    (hcap : 0 < cap) (hnew : new cap = some c) (k : K) :
    get c k = some (none, c) := by
  rw [new, if_pos hcap] at hnew
  obtain rfl := Option.some.inj hnew
  exact get_miss rfl

/-- C10: on every reachable cache state, whenever the eviction branch
would run the recency list is non-empty, and `put`/`get` always return a
result (no `unwrap` failure, no invalid dereference). -/
theorem put_get_total_on_reachable [DecidableEq K]
    {cap : Nat} {t : List (Op K V)} {c : LruCache K V}
    (hrun : run cap t = some c) :
    (c.cap ≤ c.map.length → c.order ≠ []) ∧
      (∀ k v, ∃ r c', put c k v = some (r, c')) ∧
      ∀ k, ∃ r c', get c k = some (r, c') := by
  obtain ⟨hw, -⟩ := run_some hrun
  refine ⟨?_, fun k v => put_total hw k v, fun k => get_total hw k⟩
  intro hfull h0
  have h1 : c.order.length = 0 := by rw [h0]; rfl
  have h2 := hw.lenEq
  have h3 := hw.capPos
  omega

/-! ### Concrete witnesses -/

/-- Witness for C1 at capacity 2 after `put 1 10; put 2 20; get 1` and a
`put 3 30` that evicts key `2`, the least recently touched key. -/
theorem put_evicts_least_recently_touched_witness :
    ∃ ke, (orderKeys (⟨[0, 1], [(0, (1, 10)), (1, (2, 20))], [(2, 1), (1, 0)], 2, 2, []⟩ :
        LruCache Nat Nat)).getLast? = some ke ∧
      (∀ k₂ ∈ orderKeys (⟨[0, 1], [(0, (1, 10)), (1, (2, 20))], [(2, 1), (1, 0)], 2, 2, []⟩ :
          LruCache Nat Nat),
        (mapFind k₂ (⟨[2, 0], [(0, (1, 10)), (1, (2, 20)), (2, (3, 30))], [(3, 2), (1, 0)],
            2, 3, []⟩ : LruCache Nat Nat).map = none ↔ k₂ = ke)) ∧
      ∀ k₂ ∈ orderKeys (⟨[0, 1], [(0, (1, 10)), (1, (2, 20))], [(2, 1), (1, 0)], 2, 2, []⟩ :
          LruCache Nat Nat),
        lastTouch [Op.put 1 10, Op.put 2 20, Op.get 1] ke
          ≤ lastTouch [Op.put 1 10, Op.put 2 20, Op.get 1] k₂ :=
  put_evicts_least_recently_touched
    (show run 2 [Op.put 1 10, Op.put 2 20, Op.get 1]
        = some (⟨[0, 1], [(0, (1, 10)), (1, (2, 20))], [(2, 1), (1, 0)], 2, 2, []⟩ :
          LruCache Nat Nat) from rfl)
    (show mapFind 3 (⟨[0, 1], [(0, (1, 10)), (1, (2, 20))], [(2, 1), (1, 0)], 2, 2, []⟩ :
        LruCache Nat Nat).map = none from rfl)
    (by decide)
    (show put (⟨[0, 1], [(0, (1, 10)), (1, (2, 20))], [(2, 1), (1, 0)], 2, 2, []⟩ :
          LruCache Nat Nat) 3 30
        = some (none, ⟨[2, 0], [(0, (1, 10)), (1, (2, 20)), (2, (3, 30))], [(3, 2), (1, 0)],
          2, 3, []⟩) from rfl)

/-- Witness for C2: inserting a fresh key into an empty capacity-1 cache
gives size `min (0 + 1) 1 = 1`. -/
theorem put_size_eq_min_witness :
    (⟨[0], [(0, (1, 10))], [(1, 0)], 1, 1, []⟩ : LruCache Nat Nat).map.length
        = min ((⟨[], [], [], 1, 0, []⟩ : LruCache Nat Nat).map.length
            + (if mapFind 1 (⟨[], [], [], 1, 0, []⟩ : LruCache Nat Nat).map = none
              then 1 else 0))
          (⟨[], [], [], 1, 0, []⟩ : LruCache Nat Nat).cap ∧
      (⟨[0], [(0, (1, 10))], [(1, 0)], 1, 1, []⟩ : LruCache Nat Nat).map.length
        ≤ (⟨[], [], [], 1, 0, []⟩ : LruCache Nat Nat).cap :=
  put_size_eq_min
    (show run 1 [] = some (⟨[], [], [], 1, 0, []⟩ : LruCache Nat Nat) from rfl)
    (show put (⟨[], [], [], 1, 0, []⟩ : LruCache Nat Nat) 1 10
        = some (none, ⟨[0], [(0, (1, 10))], [(1, 0)], 1, 1, []⟩) from rfl)

/-- Witness for C3: overwriting key 1 (holding 10) with 99 returns 10
and keeps the size at 1. -/
theorem put_existing_key_returns_previous_witness :
    ∃ c', put (⟨[0], [(0, (1, 10))], [(1, 0)], 3, 1, []⟩ : LruCache Nat Nat) 1 99
        = some (some 10, c') ∧
      c'.map.length = (⟨[0], [(0, (1, 10))], [(1, 0)], 3, 1, []⟩ :
        LruCache Nat Nat).map.length :=
  put_existing_key_returns_previous 99
    (show run 3 [Op.put 1 10]
        = some (⟨[0], [(0, (1, 10))], [(1, 0)], 3, 1, []⟩ : LruCache Nat Nat) from rfl)
    (show valueOf (⟨[0], [(0, (1, 10))], [(1, 0)], 3, 1, []⟩ : LruCache Nat Nat) 1
        = some 10 from rfl)

/-- Witness for C4: `put 1 10` on the empty capacity-1 cache, then
`get 1`, returns 10. -/
theorem put_then_get_returns_value_witness :
    ∃ c₂, get (⟨[0], [(0, (1, 10))], [(1, 0)], 1, 1, []⟩ : LruCache Nat Nat) 1
        = some (some 10, c₂) :=
  put_then_get_returns_value
    (show run 1 [] = some (⟨[], [], [], 1, 0, []⟩ : LruCache Nat Nat) from rfl)
    (show put (⟨[], [], [], 1, 0, []⟩ : LruCache Nat Nat) 1 10
        = some (none, ⟨[0], [(0, (1, 10))], [(1, 0)], 1, 1, []⟩) from rfl)

/-- Witness for C5 on the reachable one-entry cache. -/
theorem index_list_bijection_witness :
    (∀ k, (∃ v c₂, get (⟨[0], [(0, (1, 10))], [(1, 0)], 3, 1, []⟩ : LruCache Nat Nat) k
          = some (some v, c₂))
        ↔ k ∈ orderKeys (⟨[0], [(0, (1, 10))], [(1, 0)], 3, 1, []⟩ : LruCache Nat Nat)) ∧
      ∀ k, k ∈ orderKeys (⟨[0], [(0, (1, 10))], [(1, 0)], 3, 1, []⟩ : LruCache Nat Nat) →
        ∃ i, mapFind k (⟨[0], [(0, (1, 10))], [(1, 0)], 3, 1, []⟩ :
            LruCache Nat Nat).map = some i ∧
          i ∈ (⟨[0], [(0, (1, 10))], [(1, 0)], 3, 1, []⟩ : LruCache Nat Nat).order ∧
          (∃ v, heapFind i (⟨[0], [(0, (1, 10))], [(1, 0)], 3, 1, []⟩ :
            LruCache Nat Nat).heap = some (k, v)) ∧
          ∀ j ∈ (⟨[0], [(0, (1, 10))], [(1, 0)], 3, 1, []⟩ : LruCache Nat Nat).order,
            (∃ v, heapFind j (⟨[0], [(0, (1, 10))], [(1, 0)], 3, 1, []⟩ :
              LruCache Nat Nat).heap = some (k, v)) → j = i :=
  index_list_bijection
    (show run 3 [Op.put 1 10]
        = some (⟨[0], [(0, (1, 10))], [(1, 0)], 3, 1, []⟩ : LruCache Nat Nat) from rfl)

/-- Witness for C6: `get 5` on a cache not holding key 5 returns the
empty result and the unchanged state. -/
theorem get_absent_is_noop_witness :
    get (⟨[0], [(0, (1, 10))], [(1, 0)], 3, 1, []⟩ : LruCache Nat Nat) 5
      = some (none, ⟨[0], [(0, (1, 10))], [(1, 0)], 3, 1, []⟩) :=
  get_absent_is_noop
    (show mapFind 5 (⟨[0], [(0, (1, 10))], [(1, 0)], 3, 1, []⟩ :
        LruCache Nat Nat).map = none from rfl)

/-- Witness for C7: capacity 0 panics, capacity 1 builds an empty
cache. -/
theorem new_capacity_contract_witness :
    (new 0 : Option (LruCache Nat Nat)) = none ∧
      ∃ c : LruCache Nat Nat, new 1 = some c ∧ c.cap = 1 ∧ c.order = [] ∧ c.map = [] :=
  ⟨(new_capacity_contract Nat Nat 0).1 rfl, (new_capacity_contract Nat Nat 1).2 (by decide)⟩

/-- Witness for C9: `get 7` on a freshly built capacity-2 cache is
empty. -/
theorem get_on_fresh_cache_none_witness :
    get (⟨[], [], [], 2, 0, []⟩ : LruCache Nat Nat) 7
      = some (none, ⟨[], [], [], 2, 0, []⟩) :=
  get_on_fresh_cache_none (by decide)
    (show new 2 = some (⟨[], [], [], 2, 0, []⟩ : LruCache Nat Nat) from rfl) 7

/-- Witness for C10 on the reachable one-entry cache of capacity 2. -/
theorem put_get_total_on_reachable_witness :
    ((⟨[0], [(0, (1, 10))], [(1, 0)], 2, 1, []⟩ : LruCache Nat Nat).cap
        ≤ (⟨[0], [(0, (1, 10))], [(1, 0)], 2, 1, []⟩ : LruCache Nat Nat).map.length →
      (⟨[0], [(0, (1, 10))], [(1, 0)], 2, 1, []⟩ : LruCache Nat Nat).order ≠ []) ∧
      (∀ k v, ∃ r c',
        put (⟨[0], [(0, (1, 10))], [(1, 0)], 2, 1, []⟩ : LruCache Nat Nat) k v
          = some (r, c')) ∧
      ∀ k, ∃ r c',
        get (⟨[0], [(0, (1, 10))], [(1, 0)], 2, 1, []⟩ : LruCache Nat Nat) k
          = some (r, c') :=
  put_get_total_on_reachable
    (show run 2 [Op.put 1 10]
        = some (⟨[0], [(0, (1, 10))], [(1, 0)], 2, 1, []⟩ : LruCache Nat Nat) from rfl)

end Lru
